import Mathlib

/-!
Verification of the forward-error-correction / classical-cipher repository.

The Rust sources are embedded shallowly:
* `src/convolutional/encoder.rs` → `ConvolutionalEncoder` (`new`, `reset`, `encode`);
  machine integers become `Nat`, the register mask `(1 << (K-1)) - 1` keeps its
  bitwise form, and the `u32` underflow that `encode` hits when
  `constraint_length = 0` (debug-mode panic) is modelled by returning `none`.
* `src/turbo/encoder.rs` → `TurboEncoder` (`new`, `interleave`, `encode`).
* `src/crypto/cipher.rs` → `Cipher`; the `panic!` on an unknown algorithm is
  modelled by `none`, and Rust's `str::parse::<i32>` by `parseI32`.
* the Viterbi decoder referenced by `main.rs` has no source file in the
  repository, so `ViterbiDecoder.decode` is modelled from the specification.

Loops whose counters shrink by division (`parity`, the octal conversion,
chunking) are written with an explicit fuel argument equal to their starting
value so that every definition reduces by `decide`/`rfl`.
-/

/-- XOR-fold of the bits of `t` (the source's `while temp != 0 { parity ^= temp & 1;
temp >>= 1 }`), driven by a fuel counter that starts at `t` itself. -/
def parityAux : Nat → Nat → Bool
  | 0, _ => false
  | fuel + 1, t => if t = 0 then false else xor (decide (t % 2 = 1)) (parityAux fuel (t / 2))

/-- Parity (XOR-fold) of the bits of `t`, as computed in `ConvolutionalEncoder::encode`. -/
def parityBit (t : Nat) : Bool := parityAux t t

theorem parityAux_congr : ∀ (f₁ f₂ t : Nat), t ≤ f₁ → t ≤ f₂ →
    parityAux f₁ t = parityAux f₂ t := by
  intro f₁
  induction f₁ with
  | zero =>
    intro f₂ t h₁ _
    interval_cases t
    cases f₂ <;> simp [parityAux]
  | succ f ih =>
    intro f₂ t h₁ h₂
    cases f₂ with
    | zero =>
      interval_cases t
      simp [parityAux]
    | succ f' =>
      by_cases ht : t = 0
      · simp [parityAux, ht]
      · have hd : t / 2 < t := Nat.div_lt_self (Nat.pos_of_ne_zero ht) (by omega)
        have := ih f' (t / 2) (by omega) (by omega)
        simp [parityAux, ht, this]

theorem parityBit_eq (t : Nat) (ht : t ≠ 0) :
    parityBit t = xor (decide (t % 2 = 1)) (parityBit (t / 2)) := by
  cases t with
  | zero => exact absurd rfl ht
  | succ m =>
    show parityAux (m + 1) (m + 1) = _
    have hd : (m + 1) / 2 ≤ m := by omega
    simp only [parityAux, if_neg (Nat.succ_ne_zero m)]
    rw [parityAux_congr m ((m + 1) / 2) ((m + 1) / 2) hd le_rfl]
    rfl

theorem parityBit_add_one_of_even (y : Nat) (hy : y % 2 = 0) :
    parityBit (y + 1) = !(parityBit y) := by
  have h1 : parityBit (y + 1) = xor (decide ((y + 1) % 2 = 1)) (parityBit ((y + 1) / 2)) :=
    parityBit_eq (y + 1) (Nat.succ_ne_zero y)
  have hodd : (y + 1) % 2 = 1 := by omega
  have hdiv : (y + 1) / 2 = y / 2 := by omega
  by_cases hz : y = 0
  · subst hz
    simp [parityBit, parityAux]
  · have h2 : parityBit y = xor (decide (y % 2 = 1)) (parityBit (y / 2)) := parityBit_eq y hz
    rw [h1, hodd, hdiv, h2, hy]
    simp [Bool.xor_comm]

/-- Octal-digit extraction loop of `ConvolutionalEncoder::new`: `while octal > 0
{ digit = octal % 10; binary |= digit << shift; octal /= 10; shift += 3 }`,
with fuel starting at the polynomial itself. -/
def toBinaryAux : Nat → Nat → Nat → Nat → Nat
  | 0, binary, _, _ => binary
  | fuel + 1, binary, octal, shift =>
    if octal = 0 then binary
    else toBinaryAux fuel (binary ||| ((octal % 10) <<< shift)) (octal / 10) (shift + 3)

/-- Conversion of a decimal-written "octal" generator polynomial to its tap mask,
as in `ConvolutionalEncoder::new`. -/
def toBinary (p : Nat) : Nat := toBinaryAux p 0 p 0

/-- Shift-register convolutional encoder (`src/convolutional/encoder.rs`). -/
structure ConvolutionalEncoder where
  constraint_length : Nat
  polynomials : List Nat
  rate_denominator : Nat
  state : Nat
deriving DecidableEq

/-- `ConvolutionalEncoder::new`: converts every polynomial with `toBinary`,
stores the raw list's length as the rate denominator, and zeroes the register. -/
def ConvolutionalEncoder.new (constraint_length : Nat) (polynomials : List Nat) :
    ConvolutionalEncoder :=
  { constraint_length := constraint_length
    polynomials := polynomials.map toBinary
    rate_denominator := polynomials.length
    state := 0 }

/-- `ConvolutionalEncoder::reset`: sets the register to 0. -/
def ConvolutionalEncoder.reset (e : ConvolutionalEncoder) : ConvolutionalEncoder :=
  { e with state := 0 }

/-- The bit loop of `ConvolutionalEncoder::encode`: shift the register, OR in the
input bit, mask, then emit one parity bit per polynomial. Returns the final
register value and the output bits. -/
def ConvolutionalEncoder.encodeCore (mask : Nat) (polys : List Nat) (s : Nat) :
    List Bool → Nat × List Bool
  | [] => (s, [])
  | b :: rest =>
    let s' := ((s <<< 1) ||| (if b then 1 else 0)) &&& mask
    let r := ConvolutionalEncoder.encodeCore mask polys s' rest
    (r.1, polys.map (fun poly => parityBit (s' &&& poly)) ++ r.2)

/-- `ConvolutionalEncoder::encode`. With `constraint_length = 0` the Rust code
evaluates `(1 << (self.constraint_length - 1)) - 1` on `u32` and the
subtraction underflows — a debug-mode panic, modelled here as `none`. -/
def ConvolutionalEncoder.encode (e : ConvolutionalEncoder) (input : List Bool) :
    Option (ConvolutionalEncoder × List Bool) :=
  if e.constraint_length = 0 then none
  else
    let register_mask := (1 <<< (e.constraint_length - 1)) - 1
    let r := ConvolutionalEncoder.encodeCore register_mask e.polynomials e.state input
    some ({ e with state := r.1 }, r.2)

theorem encodeCore_nil (mask : Nat) (polys : List Nat) (s : Nat) :
    ConvolutionalEncoder.encodeCore mask polys s [] = (s, []) := rfl

theorem encodeCore_cons (mask : Nat) (polys : List Nat) (s : Nat) (b : Bool) (rest : List Bool) :
    ConvolutionalEncoder.encodeCore mask polys s (b :: rest) =
      (let s' := ((s <<< 1) ||| (if b then 1 else 0)) &&& mask
       let r := ConvolutionalEncoder.encodeCore mask polys s' rest
       (r.1, polys.map (fun poly => parityBit (s' &&& poly)) ++ r.2)) := rfl

theorem encodeCore_snd_length (mask : Nat) (polys : List Nat) :
    ∀ (input : List Bool) (s : Nat),
      (ConvolutionalEncoder.encodeCore mask polys s input).2.length =
        input.length * polys.length := by
  intro input
  induction input with
  | nil => intro s; simp [encodeCore_nil]
  | cons b rest ih =>
    intro s
    rw [encodeCore_cons]
    simp only [List.length_append, List.length_map, List.length_cons, ih]
    ring

theorem encodeCore_append (mask : Nat) (polys : List Nat) :
    ∀ (b₁ b₂ : List Bool) (s : Nat),
      ConvolutionalEncoder.encodeCore mask polys s (b₁ ++ b₂) =
        ((ConvolutionalEncoder.encodeCore mask polys
            (ConvolutionalEncoder.encodeCore mask polys s b₁).1 b₂).1,
         (ConvolutionalEncoder.encodeCore mask polys s b₁).2 ++
           (ConvolutionalEncoder.encodeCore mask polys
             (ConvolutionalEncoder.encodeCore mask polys s b₁).1 b₂).2) := by
  intro b₁
  induction b₁ with
  | nil => intro b₂ s; simp [encodeCore_nil]
  | cons b rest ih =>
    intro b₂ s
    simp [List.cons_append, encodeCore_cons, ih]

/-- Interleaving permutation of `TurboEncoder::interleave`: a fresh all-`false`
buffer of the input's length receives `input[i]` at position `(i*7+5) % len`. -/
def TurboEncoder.interleave (input : List Bool) : List Bool :=
  let len := input.length
  (List.range len).foldl
    (fun interleaved i => interleaved.set ((i * 7 + 5) % len) (input.getD i false))
    (List.replicate len false)

/-- Parallel-concatenated turbo encoder (`src/turbo/encoder.rs`). -/
structure TurboEncoder where
  encoder1 : ConvolutionalEncoder
  encoder2 : ConvolutionalEncoder
deriving DecidableEq

/-- `TurboEncoder::new`: two constituent encoders, both with constraint length 3
and the same polynomial list. -/
def TurboEncoder.new (polynomials : List Nat) : TurboEncoder :=
  { encoder1 := ConvolutionalEncoder.new 3 polynomials
    encoder2 := ConvolutionalEncoder.new 3 polynomials }

/-- `TurboEncoder::encode`: reset both encoders, encode the input with the first,
encode the interleaved input with the second, and emit systematic bits followed
by both parity streams. The constituent `encode` calls are fallible in the
model (constraint length 0), hence the `match`. -/
def TurboEncoder.encode (t : TurboEncoder) (input : List Bool) :
    Option (TurboEncoder × List Bool) :=
  match t.encoder1.reset.encode input,
        t.encoder2.reset.encode (TurboEncoder.interleave input) with
  | some (e1, encoded1), some (e2, encoded2) =>
      some ({ encoder1 := e1, encoder2 := e2 }, input ++ encoded1 ++ encoded2)
  | _, _ => none

theorem interleave_length_aux (input : List Bool) (len : Nat) :
    ∀ (l : List Nat) (acc : List Bool),
      (l.foldl (fun interleaved i =>
        interleaved.set ((i * 7 + 5) % len) (input.getD i false)) acc).length =
        acc.length := by
  intro l
  induction l with
  | nil => intro acc; rfl
  | cons x xs ih => intro acc; rw [List.foldl_cons, ih, List.length_set]

theorem interleave_length (input : List Bool) :
    (TurboEncoder.interleave input).length = input.length := by
  unfold TurboEncoder.interleave
  rw [interleave_length_aux, List.length_replicate]

/-- C3: whenever `encode` completes, the output holds exactly one parity bit per
configured polynomial for each input bit: `len(out) = len(input) * len(polynomials)`. -/
theorem encode_length_rate (e e' : ConvolutionalEncoder) (input out : List Bool)
    (h : e.encode input = some (e', out)) :
    out.length = input.length * e.polynomials.length := by
  unfold ConvolutionalEncoder.encode at h
  by_cases hK : e.constraint_length = 0
  · simp [hK] at h
  · rw [if_neg hK] at h
    simp only [Option.some.injEq, Prod.mk.injEq] at h
    rw [← h.2]
    exact encodeCore_snd_length _ _ input e.state

theorem encode_length_rate_witness :
    ([true, true, true, false, true, true] : List Bool).length =
      ([true, false, true] : List Bool).length *
        (ConvolutionalEncoder.new 3 [7, 5]).polynomials.length :=
  encode_length_rate (ConvolutionalEncoder.new 3 [7, 5]) ⟨3, [7, 5], 2, 1⟩
    [true, false, true] [true, true, true, false, true, true] (by decide)

/-- C4: the repository's own unit test `test_encoder` expects
`encode([1,0,1,1,0])` with constraint length 3 and polynomials `[7,5]` to be
`[1,1, 1,0, 0,1, 1,1, 1,0]`, but the code produces `[1,1, 1,0, 1,1, 0,1, 1,0]`
(the register is masked to `K-1 = 2` bits, so polynomial 7 effectively loses its
third tap): the code contradicts its own test. -/
theorem encode_test_vector_divergence :
    ((ConvolutionalEncoder.new 3 [7, 5]).encode [true, false, true, true, false]).map Prod.snd =
      some [true, true, true, false, true, true, false, true, true, false] ∧
    some [true, true, true, false, true, true, false, true, true, false] ≠
      some [true, true, true, false, false, true, true, true, true, false] := by decide

/-- C6 counterexample: constructing from polynomial 8 (decimal digit 8, outside
0–7) does not fail — `new` has no failure channel at all — and produces the tap
mask 8, refuting "fails with an InvalidPolynomial condition instead of
producing a tap mask". -/
theorem new_accepts_digit_eight :
    (ConvolutionalEncoder.new 3 [8]).polynomials = [8] ∧ toBinary 8 = 8 := by decide

/-- C6 amended: a polynomial with a digit 8 or 9 is accepted and its 4-bit digit
value is OR-ed into the mask, silently corrupting it: polynomials 8 and 10
yield the identical mask 8, so distinct inputs collide and no
`InvalidPolynomial` condition exists. -/
theorem new_digit_eight_corrupts_mask :
    (ConvolutionalEncoder.new 3 [8]).polynomials = [8] ∧
    (ConvolutionalEncoder.new 3 [10]).polynomials = [8] ∧
    toBinary 8 = toBinary 10 ∧ (8 : Nat) ≠ 10 := by decide

/-- C8 counterexample: with constraint length 0 `encode` hits the `u32`
underflow in `(1 << (K-1)) - 1` (debug-mode abort, modelled `none`) — not an
`InvalidConfiguration` result — and with an empty polynomial list it happily
produces (empty) output instead of failing. -/
theorem encoder_no_validation_counterexample :
    (ConvolutionalEncoder.new 0 [7]).encode [true] = none ∧
    ((ConvolutionalEncoder.new 3 ([] : List Nat)).encode [true]).map Prod.snd =
      some ([] : List Bool) := by decide

theorem encodeCore_snd_of_nil_polys (mask : Nat) :
    ∀ (input : List Bool) (s : Nat),
      (ConvolutionalEncoder.encodeCore mask [] s input).2 = [] := by
  intro input
  induction input with
  | nil => intro s; rfl
  | cons b rest ih => intro s; simp [encodeCore_cons, ih]

/-- C8 amended: the code validates nothing. Construction always succeeds; with
constraint length 0 every `encode` call aborts on integer underflow (modelled
`none`) rather than surfacing an error, and with an empty polynomial list
`encode` succeeds and returns an empty output. -/
theorem encoder_invalid_configuration_behavior (polys : List Nat) (input : List Bool) (K : Nat) :
    (ConvolutionalEncoder.new 0 polys).encode input = none ∧
    (K ≠ 0 →
      ((ConvolutionalEncoder.new K ([] : List Nat)).encode input).map Prod.snd =
        some ([] : List Bool)) := by
  constructor
  · rfl
  · intro hK
    simp [ConvolutionalEncoder.encode, ConvolutionalEncoder.new, hK,
      encodeCore_snd_of_nil_polys]

theorem encoder_invalid_configuration_behavior_witness :
    (ConvolutionalEncoder.new 0 [7]).encode [false] = none ∧
    ((ConvolutionalEncoder.new 3 ([] : List Nat)).encode [false]).map Prod.snd =
      some ([] : List Bool) :=
  ⟨(encoder_invalid_configuration_behavior [7] [false] 3).1,
   (encoder_invalid_configuration_behavior [7] [false] 3).2 (by decide)⟩

/-- C9: `encode` mutates only the running register — constraint length,
polynomial list and rate denominator are untouched — the register persists
across successive `encode` calls (two calls behave exactly like one call on the
concatenated input), and `reset` always succeeds and only zeroes the register. -/
theorem encode_frame_and_persistence (e e₁ e₂ : ConvolutionalEncoder)
    (b₁ b₂ o₁ o₂ : List Bool)
    (h₁ : e.encode b₁ = some (e₁, o₁)) (h₂ : e₁.encode b₂ = some (e₂, o₂)) :
    e₁.constraint_length = e.constraint_length ∧
    e₁.polynomials = e.polynomials ∧
    e₁.rate_denominator = e.rate_denominator ∧
    e.encode (b₁ ++ b₂) = some (e₂, o₁ ++ o₂) ∧
    e.reset = { e with state := 0 } := by
  unfold ConvolutionalEncoder.encode at h₁ h₂ ⊢
  by_cases hK : e.constraint_length = 0
  · simp [hK] at h₁
  · rw [if_neg hK] at h₁
    simp only [Option.some.injEq, Prod.mk.injEq] at h₁
    obtain ⟨he₁, ho₁⟩ := h₁
    subst he₁
    simp only at h₂
    rw [if_neg hK] at h₂
    simp only [Option.some.injEq, Prod.mk.injEq] at h₂
    obtain ⟨he₂, ho₂⟩ := h₂
    refine ⟨rfl, rfl, rfl, ?_, rfl⟩
    rw [if_neg hK]
    simp only [Option.some.injEq, Prod.mk.injEq]
    rw [encodeCore_append]
    exact ⟨by rw [← he₂], by rw [← ho₁, ← ho₂]⟩

theorem encode_frame_and_persistence_witness :
    (⟨3, [7, 5], 2, 1⟩ : ConvolutionalEncoder).constraint_length =
      (ConvolutionalEncoder.new 3 [7, 5]).constraint_length ∧
    (⟨3, [7, 5], 2, 1⟩ : ConvolutionalEncoder).polynomials =
      (ConvolutionalEncoder.new 3 [7, 5]).polynomials ∧
    (⟨3, [7, 5], 2, 1⟩ : ConvolutionalEncoder).rate_denominator =
      (ConvolutionalEncoder.new 3 [7, 5]).rate_denominator ∧
    (ConvolutionalEncoder.new 3 [7, 5]).encode ([true] ++ [false]) =
      some (⟨3, [7, 5], 2, 2⟩, [true, true] ++ [true, false]) ∧
    (ConvolutionalEncoder.new 3 [7, 5]).reset =
      { ConvolutionalEncoder.new 3 [7, 5] with state := 0 } :=
  encode_frame_and_persistence (ConvolutionalEncoder.new 3 [7, 5])
    ⟨3, [7, 5], 2, 1⟩ ⟨3, [7, 5], 2, 2⟩ [true] [false] [true, true] [true, false]
    (by decide) (by decide)

/-- C5: turbo encoding is exactly the systematic bits followed by encoder 1's
parity bits on the input and encoder 2's parity bits on the interleaved input;
the first `len(input)` output bits are the input and the total length is
`len(input) * (1 + 2 * len(polynomials))`. -/
theorem turbo_encode_structure (polys : List Nat) (input : List Bool) :
    ((TurboEncoder.new polys).encode input).map Prod.snd =
      some (input ++
        (ConvolutionalEncoder.encodeCore 3 (polys.map toBinary) 0 input).2 ++
        (ConvolutionalEncoder.encodeCore 3 (polys.map toBinary) 0
          (TurboEncoder.interleave input)).2) ∧
    (input ++
        (ConvolutionalEncoder.encodeCore 3 (polys.map toBinary) 0 input).2 ++
        (ConvolutionalEncoder.encodeCore 3 (polys.map toBinary) 0
          (TurboEncoder.interleave input)).2).take input.length = input ∧
    (input ++
        (ConvolutionalEncoder.encodeCore 3 (polys.map toBinary) 0 input).2 ++
        (ConvolutionalEncoder.encodeCore 3 (polys.map toBinary) 0
          (TurboEncoder.interleave input)).2).length =
      input.length * (1 + 2 * polys.length) := by
  refine ⟨?_, ?_, ?_⟩
  · simp only [TurboEncoder.encode, TurboEncoder.new, ConvolutionalEncoder.reset,
      ConvolutionalEncoder.encode, ConvolutionalEncoder.new]
    norm_num [Nat.shiftLeft_eq]
  · rw [List.append_assoc]
    exact List.take_left input _
  · simp only [List.length_append, encodeCore_snd_length, List.length_map,
      interleave_length]
    ring

/-- C2 counterexample: for length 7 the map `i -> (i*7+5) % len` sends every
index to 5 (7 divides the length), so indices 0 and 1 collide and interleaving
seven `true` bits returns a list with a single `true`: not a permutation. -/
theorem interleave_not_bijective_len_seven :
    (0 * 7 + 5) % 7 = (1 * 7 + 5) % 7 ∧
    TurboEncoder.interleave [true, true, true, true, true, true, true] =
      [false, false, false, false, false, true, false] ∧
    ¬ (TurboEncoder.interleave [true, true, true, true, true, true, true]).Perm
        [true, true, true, true, true, true, true] := by decide

theorem interleave_index_injective (len : Nat) (hco : Nat.Coprime 7 len)
    (i j : Nat) (hi : i < len) (hj : j < len)
    (h : (i * 7 + 5) % len = (j * 7 + 5) % len) : i = j := by
  have h2 : i * 7 ≡ j * 7 [MOD len] := Nat.ModEq.add_right_cancel' 5 h
  have h3 : 7 * i ≡ 7 * j [MOD len] := by rwa [Nat.mul_comm i 7, Nat.mul_comm j 7] at h2
  have h4 : i ≡ j [MOD len] := Nat.ModEq.cancel_left_of_coprime hco.symm h3
  have h5 : i % len = j % len := h4
  rwa [Nat.mod_eq_of_lt hi, Nat.mod_eq_of_lt hj] at h5

theorem interleave_fold_getD (input : List Bool) (len : Nat) (hlen : 0 < len)
    (inj : ∀ i j, i < len → j < len → (i * 7 + 5) % len = (j * 7 + 5) % len → i = j) :
    ∀ k, k ≤ len →
      (((List.range k).foldl
          (fun acc i => acc.set ((i * 7 + 5) % len) (input.getD i false))
          (List.replicate len false)).length = len) ∧
      (∀ i, i < k →
        ((List.range k).foldl
          (fun acc i => acc.set ((i * 7 + 5) % len) (input.getD i false))
          (List.replicate len false)).getD ((i * 7 + 5) % len) false = input.getD i false) := by
  intro k
  induction k with
  | zero => intro _; simp
  | succ k ih =>
    intro hk
    obtain ⟨ihlen, ihget⟩ := ih (by omega)
    rw [List.range_succ, List.foldl_append]
    simp only [List.foldl_cons, List.foldl_nil]
    refine ⟨by rw [List.length_set, ihlen], ?_⟩
    intro i hi
    by_cases heq : i = k
    · subst heq
      rw [List.getD_eq_getElem?_getD, List.getElem?_set, if_pos rfl, ihlen,
        if_pos (Nat.mod_lt _ hlen)]
      rfl
    · have hik : i < k := by omega
      have hne : (k * 7 + 5) % len ≠ (i * 7 + 5) % len := fun hcon =>
        heq (inj i k (by omega) (by omega) hcon.symm)
      rw [List.getD_eq_getElem?_getD, List.getElem?_set, if_neg hne,
        ← List.getD_eq_getElem?_getD]
      exact ihget i hik

theorem interleave_getD (input : List Bool) (hlen : 0 < input.length)
    (hco : Nat.Coprime 7 input.length) :
    ∀ i, i < input.length →
      (TurboEncoder.interleave input).getD ((i * 7 + 5) % input.length) false =
        input.getD i false := by
  intro i hi
  exact (interleave_fold_getD input input.length hlen
    (fun i j hi hj => interleave_index_injective input.length hco i j hi hj)
    input.length le_rfl).2 i hi

theorem map_getD_range (l : List Bool) :
    (List.range l.length).map (fun n => l.getD n false) = l := by
  apply List.ext_get
  · simp
  · intro n h₁ h₂
    simp only [List.get_eq_getElem, List.getElem_map, List.getElem_range]
    rw [List.getD_eq_getElem?_getD, List.getElem?_eq_getElem h₂, Option.getD_some]

/-- C2 amended: for every positive length coprime to 7 (equivalently, not
divisible by 7), the map `i -> (i*7+5) mod len` is a bijection on `0..len`, and
`interleave` then permutes its input; for lengths divisible by 7 this fails
(see the length-7 counterexample). -/
theorem interleave_bijective_of_coprime (len : Nat) (hlen : 0 < len)
    (hco : Nat.Coprime 7 len) :
    Function.Bijective
      (fun i : Fin len => (⟨(i.val * 7 + 5) % len, Nat.mod_lt _ hlen⟩ : Fin len)) ∧
    ∀ input : List Bool, input.length = len →
      (TurboEncoder.interleave input).Perm input := by
  constructor
  · rw [← Finite.injective_iff_bijective]
    intro a b hab
    exact Fin.ext (interleave_index_injective len hco a.val b.val a.isLt b.isLt
      (congrArg Fin.val hab))
  · intro input hl
    subst hl
    have hgd := interleave_getD input hlen hco
    have hlen2 : (TurboEncoder.interleave input).length = input.length :=
      interleave_length input
    have hinj : ∀ i j, i < input.length → j < input.length →
        (i * 7 + 5) % input.length = (j * 7 + 5) % input.length → i = j :=
      fun i j hi hj => interleave_index_injective input.length hco i j hi hj
    -- the written index list is a permutation of 0..len
    have hidx : ((List.range input.length).map
        (fun i => (i * 7 + 5) % input.length)).Perm (List.range input.length) := by
      have hnd : ((List.range input.length).map
          (fun i => (i * 7 + 5) % input.length)).Nodup :=
        List.Nodup.map_on
          (fun x hx y hy hxy =>
            hinj x y (List.mem_range.mp hx) (List.mem_range.mp hy) hxy)
          (List.nodup_range input.length)
      have hsub : ((List.range input.length).map
          (fun i => (i * 7 + 5) % input.length)) ⊆ List.range input.length := by
        intro a ha
        obtain ⟨i, _, hi⟩ := List.mem_map.mp ha
        rw [← hi]
        exact List.mem_range.mpr (Nat.mod_lt _ hlen)
      refine (List.subperm_of_subset hnd hsub).perm_of_length_le ?_
      simp
    -- rewrite the interleaved list through the permuted index list
    have hout : TurboEncoder.interleave input =
        (List.range input.length).map
          (fun n => (TurboEncoder.interleave input).getD n false) := by
      conv_lhs => rw [← map_getD_range (TurboEncoder.interleave input)]
      rw [hlen2]
    have hmapped : ((List.range input.length).map
        (fun i => (i * 7 + 5) % input.length)).map
          (fun n => (TurboEncoder.interleave input).getD n false) = input := by
      rw [List.map_map]
      have : ∀ i ∈ List.range input.length,
          ((fun n => (TurboEncoder.interleave input).getD n false) ∘
            (fun i => (i * 7 + 5) % input.length)) i = input.getD i false :=
        fun i hi => hgd i (List.mem_range.mp hi)
      rw [List.map_congr_left this, map_getD_range]
    have hperm :=
      hidx.map (fun n => (TurboEncoder.interleave input).getD n false)
    rw [hmapped] at hperm
    rw [← hout] at hperm
    exact hperm.symm

theorem interleave_bijective_of_coprime_witness :
    Function.Bijective
      (fun i : Fin 5 => (⟨(i.val * 7 + 5) % 5, Nat.mod_lt _ (by norm_num)⟩ : Fin 5)) ∧
    (TurboEncoder.interleave [true, false, true, false, false]).Perm
      [true, false, true, false, false] :=
  ⟨(interleave_bijective_of_coprime 5 (by norm_num) (by decide)).1,
   (interleave_bijective_of_coprime 5 (by norm_num) (by decide)).2
     [true, false, true, false, false] rfl⟩

/-- Rust's `char::is_ascii_alphabetic`. -/
def isAsciiAlphabetic (c : Char) : Bool :=
  (decide (65 ≤ c.toNat) && decide (c.toNat ≤ 90)) ||
  (decide (97 ≤ c.toNat) && decide (c.toNat ≤ 122))

/-- Rust's `char::is_ascii_lowercase`. -/
def isAsciiLowercase (c : Char) : Bool :=
  decide (97 ≤ c.toNat) && decide (c.toNat ≤ 122)

/-- Model of Rust's `str::parse::<i32>`: an optional sign, then one or more
ASCII digits, with the value required to fit in an `i32`; anything else is a
parse failure (`none`). -/
def parseI32 (s : String) : Option Int :=
  let digitsToNat := fun (ds : List Char) =>
    ds.foldl (fun (a : Nat) c => a * 10 + (c.toNat - 48)) 0
  let core := fun (neg : Bool) (ds : List Char) =>
    if ds = [] then none
    else if ds.all (fun c => decide (48 ≤ c.toNat) && decide (c.toNat ≤ 57)) then
      let v : Int := if neg then -(digitsToNat ds : Int) else (digitsToNat ds : Int)
      if decide (-(2 ^ 31) ≤ v) && decide (v ≤ 2 ^ 31 - 1) then some v else none
    else none
  match s.data with
  | [] => none
  | c :: rest =>
    if c = '-' then core true rest
    else if c = '+' then core false rest
    else core false s.data

/-- Classical-cipher façade (`src/crypto/cipher.rs`). -/
structure Cipher where
  algorithm : String
  key : String
deriving DecidableEq

/-- `Cipher::new`. -/
def Cipher.new (algorithm key : String) : Cipher :=
  { algorithm := algorithm, key := key }

/-- `Cipher::caesar_cipher`: the key is parsed as an `i32` with default 3, taken
`% 26` (Rust's truncated remainder, `Int.tmod`), inverted for decryption, and
cast `as u8` (low 8 bits, `emod 256`). Alphabetic ASCII characters are rotated
within their case; everything else passes through. The `u8` addition
`c - base + shift` (which can only overflow for a negative parsed key, a
debug-mode panic in Rust) is modelled without wrapping. -/
def Cipher.caesar_cipher (ci : Cipher) (message : String) (encrypt : Bool) : String :=
  let shift : Int := Int.tmod ((parseI32 ci.key).getD 3) 26
  let shift : Int := if encrypt then shift else 26 - shift
  let shiftN : Nat := (shift % 256).toNat
  String.mk (message.data.map (fun c =>
    if isAsciiAlphabetic c then
      let base := if isAsciiLowercase c then 97 else 65
      Char.ofNat (((c.toNat - base + shiftN) % 26) + base)
    else c))

/-- `Cipher::vigenere_cipher`: the key is lowercased and its ASCII-alphabetic
bytes kept (on the lowercased key, filtering bytes and filtering characters
agree: every multi-byte UTF-8 unit lies outside the alphabetic byte ranges);
if none remain the message is returned unchanged, otherwise alphabetic message
characters are shifted by successive key letters while other characters pass
through without consuming a key letter. -/
def Cipher.vigenere_cipher (ci : Cipher) (message : String) (encrypt : Bool) : String :=
  let key_bytes : List Nat :=
    ((ci.key.data.map Char.toLower).filter isAsciiAlphabetic).map Char.toNat
  if key_bytes = [] then message
  else
    let step := fun (acc : List Char × Nat) (c : Char) =>
      if isAsciiAlphabetic c then
        let base := if isAsciiLowercase c then 97 else 65
        let k := key_bytes.getD (acc.2 % key_bytes.length) 0 - 97
        let offset := if encrypt then ((c.toNat - base + k) % 26) + base
          else ((c.toNat - base + 26 - k) % 26) + base
        (acc.1 ++ [Char.ofNat offset], acc.2 + 1)
      else (acc.1 ++ [c], acc.2)
    String.mk (message.data.foldl step ([], 0)).1

/-- `Cipher::xor_cipher`: the message's UTF-8 bytes are XOR-ed with the key's
UTF-8 bytes cycled, and each resulting byte is re-read `as char`; an empty key
returns the message unchanged. -/
def Cipher.xor_cipher (ci : Cipher) (message : String) : String :=
  let key_bytes := ci.key.toUTF8.toList.map (fun b => b.toNat)
  if key_bytes = [] then message
  else String.mk ((message.toUTF8.toList.map (fun b => b.toNat)).enum.map
    (fun p => Char.ofNat (p.2 ^^^ key_bytes.getD (p.1 % key_bytes.length) 0)))

/-- `Cipher::encrypt`: dispatch on the algorithm name; the final arm of the Rust
`match` is `panic!("Unsupported algorithm: ...")`, modelled as `none`. -/
def Cipher.encrypt (ci : Cipher) (message : String) : Option String :=
  if ci.algorithm = "caesar" then some (ci.caesar_cipher message true)
  else if ci.algorithm = "vigenere" then some (ci.vigenere_cipher message true)
  else if ci.algorithm = "xor" then some (ci.xor_cipher message)
  else none

/-- `Cipher::decrypt`: same dispatch as `encrypt`, with the inverse direction for
caesar and vigenère; the unknown-algorithm arm is again a `panic!`, modelled
as `none`. -/
def Cipher.decrypt (ci : Cipher) (message : String) : Option String :=
  if ci.algorithm = "caesar" then some (ci.caesar_cipher message false)
  else if ci.algorithm = "vigenere" then some (ci.vigenere_cipher message false)
  else if ci.algorithm = "xor" then some (ci.xor_cipher message)
  else none

/-- C7 counterexample: with algorithm name `rot13` both `encrypt` and `decrypt`
reach the `panic!("Unsupported algorithm: ...")` arm (modelled `none`): the
call aborts instead of returning an `UnsupportedAlgorithm` failure result — no
such result type exists anywhere in the code. -/
theorem encrypt_unknown_algorithm_counterexample :
    (Cipher.new "rot13" "key").encrypt "Hello" = none ∧
    (Cipher.new "rot13" "key").decrypt "Hello" = none := by decide

/-- C7 amended: for every message and key, calling `encrypt` or `decrypt` with
an algorithm name other than caesar, vigenere, or xor panics with an
"Unsupported algorithm" message (uncontrolled termination, modelled `none`)
rather than surfacing an explicit `UnsupportedAlgorithm` result. -/
theorem encrypt_unknown_algorithm_panics (alg key msg : String)
    (h1 : alg ≠ "caesar") (h2 : alg ≠ "vigenere") (h3 : alg ≠ "xor") :
    (Cipher.new alg key).encrypt msg = none ∧
    (Cipher.new alg key).decrypt msg = none := by
  unfold Cipher.encrypt Cipher.decrypt Cipher.new
  simp [h1, h2, h3]

theorem encrypt_unknown_algorithm_panics_witness :
    (Cipher.new "rot13" "k").encrypt "abc" = none ∧
    (Cipher.new "rot13" "k").decrypt "abc" = none :=
  encrypt_unknown_algorithm_panics "rot13" "k" "abc" (by decide) (by decide) (by decide)

/-- C10: for the caesar algorithm a key that does not parse as an integer
silently falls back to `unwrap_or(3)`: encryption and decryption behave exactly
as with the key string `3`. -/
theorem caesar_unparsable_key_defaults_three (key msg : String)
    (h : parseI32 key = none) :
    (Cipher.new "caesar" key).encrypt msg = (Cipher.new "caesar" "3").encrypt msg ∧
    (Cipher.new "caesar" key).decrypt msg = (Cipher.new "caesar" "3").decrypt msg := by
  have h3 : parseI32 "3" = some 3 := by decide
  unfold Cipher.encrypt Cipher.decrypt Cipher.new Cipher.caesar_cipher
  simp [h, h3]

theorem caesar_unparsable_key_defaults_three_witness :
    (Cipher.new "caesar" "abc").encrypt "Az" = (Cipher.new "caesar" "3").encrypt "Az" ∧
    (Cipher.new "caesar" "abc").decrypt "Az" = (Cipher.new "caesar" "3").decrypt "Az" :=
  caesar_unparsable_key_defaults_three "abc" "Az" (by decide)

/-- Modelled from the spec: number of trellis states of the Viterbi decoder,
`2^(constraint_length - 1)` (§4.3); the decoder's own source file
(`src/convolutional/viterbi.rs`) is referenced by `main.rs` but missing from
the repository. -/
def numStates (K : Nat) : Nat := 2 ^ (K - 1)

/-- Modelled from the spec: the trellis transition function — the decoder uses
the same post-shift masked register update as the encoder (§4.3). -/
def nextState (K : Nat) (s : Nat) (b : Bool) : Nat :=
  ((s <<< 1) ||| (if b then 1 else 0)) &&& ((1 <<< (K - 1)) - 1)

/-- Modelled from the spec: the expected n-bit output of a trellis transition,
one parity bit per polynomial mask computed by the encoder's XOR-fold against
the hypothetical post-shift register (§4.3). -/
def outGroup (K : Nat) (masks : List Nat) (s : Nat) (b : Bool) : List Bool :=
  masks.map (fun p => parityBit ((nextState K s b) &&& p))

/-- Modelled from the spec: branch metric — Hamming distance, the count of
differing bits between two equal-length groups (§4.3). -/
def hamming : List Bool → List Bool → Nat
  | [], _ => 0
  | _ :: _, [] => 0
  | a :: as, b :: bs => (if a = b then 0 else 1) + hamming as bs

/-- Fuel-driven splitting of the received sequence into `n`-bit groups. -/
def chunkAux : Nat → Nat → List Bool → List (List Bool)
  | 0, _, _ => []
  | fuel + 1, n, l =>
    if n = 0 then []
    else if l = [] then []
    else l.take n :: chunkAux fuel n (l.drop n)

/-- Modelled from the spec: the received coded sequence is consumed in groups of
`n` bits, one group per trellis time step (§4.3). -/
def chunk (n : Nat) (l : List Bool) : List (List Bool) := chunkAux l.length n l

/-- Modelled from the spec: initial metric table — at time step 0 only the zero
state is reachable, with accumulated metric 0 and an empty survivor path; the
survivor path is kept with each state (most recent input bit first), fusing the
spec's back-pointer table and final traceback into the recursion (§4.3). -/
def initMet : Nat → Option (Nat × List Bool) := fun s => if s = 0 then some (0, []) else none

/-- Modelled from the spec: add-compare-select comparison — keep the candidate
with the strictly smaller accumulated metric, preferring the earlier candidate
on ties, which makes tie-breaking deterministic (§4.3). -/
def better (x y : Option (Nat × List Bool)) : Option (Nat × List Bool) :=
  match x, y with
  | none, y => y
  | some a, none => some a
  | some a, some b => if b.1 < a.1 then some b else some a

/-- Minimum (by `better`) of a list of optional scored survivors. -/
def pickBest (l : List (Option (Nat × List Bool))) : Option (Nat × List Bool) :=
  l.foldl better none

/-- All (state, input-bit) pairs of one trellis step, in increasing state order. -/
def statePairs (K : Nat) : List (Nat × Bool) :=
  (List.range (numStates K)).flatMap (fun s => [(s, false), (s, true)])

/-- Modelled from the spec: the candidate that transition `sb` contributes to
destination state `d` — reachable predecessor metric plus the branch metric
against the received group, with the input bit prepended to the survivor (§4.3). -/
def branchCand (K : Nat) (masks : List Nat) (met : Nat → Option (Nat × List Bool))
    (g : List Bool) (d : Nat) (sb : Nat × Bool) : Option (Nat × List Bool) :=
  if nextState K sb.1 sb.2 = d then
    (met sb.1).map (fun mp => (mp.1 + hamming (outGroup K masks sb.1 sb.2) g, sb.2 :: mp.2))
  else none

/-- Modelled from the spec: one trellis time step — for every destination state
keep the minimum over all incoming transitions (add-compare-select) (§4.3). -/
def stepMet (K : Nat) (masks : List Nat) (met : Nat → Option (Nat × List Bool))
    (g : List Bool) : Nat → Option (Nat × List Bool) :=
  fun d => pickBest ((statePairs K).map (branchCand K masks met g d))

/-- Modelled from the spec: the maximum-likelihood Viterbi decoder whose source
file `src/convolutional/viterbi.rs` is referenced by `main.rs` but absent from
the repository; constructed, like the encoder, from a constraint length and a
raw polynomial list (§4.3). -/
structure ViterbiDecoder where
  constraint_length : Nat
  polynomials : List Nat
deriving DecidableEq

/-- Modelled from the spec: `ViterbiDecoder::new(constraint_length, polynomials)`
as called by `main.rs`. -/
def ViterbiDecoder.new (constraint_length : Nat) (polynomials : List Nat) : ViterbiDecoder :=
  { constraint_length := constraint_length, polynomials := polynomials }

/-- Modelled from the spec (§4.3): reject a received length that is not a
multiple of n (`InvalidInputLength`, modelled `none`), run the trellis
recursion over the n-bit groups from the zero state, select the final state
with the globally minimal metric (lowest state index on ties), and return its
survivor path in chronological order. -/
def ViterbiDecoder.decode (d : ViterbiDecoder) (received : List Bool) : Option (List Bool) :=
  let K := d.constraint_length
  let masks := d.polynomials.map toBinary
  let n := masks.length
  if n = 0 then (if received.length = 0 then some [] else none)
  else if received.length % n ≠ 0 then none
  else
    let finalMet := (chunk n received).foldl (stepMet K masks) initMet
    (pickBest ((List.range (numStates K)).map finalMet)).map (fun mp => mp.2.reverse)

/-- Register contents after feeding `bs` from state `s` (decoder-side view of
the encoder's shift register). -/
def stateAfter (K : Nat) (s : Nat) (bs : List Bool) : Nat :=
  bs.foldl (fun s b => nextState K s b) s

/-- Output bits of the encoder run from state `s` with the register mask
implied by constraint length `K`. -/
def encBits (K : Nat) (masks : List Nat) (s : Nat) (bs : List Bool) : List Bool :=
  (ConvolutionalEncoder.encodeCore ((1 <<< (K - 1)) - 1) masks s bs).2

theorem or_one_of_even (x : Nat) (hx : x % 2 = 0) : x ||| 1 = x + 1 := by
  apply Nat.eq_of_testBit_eq
  intro i
  cases i with
  | zero =>
    rw [Nat.testBit_or]
    have e1 : Nat.testBit x 0 = false := by
      rw [Nat.testBit_zero, hx]
      decide
    have e3 : Nat.testBit (x + 1) 0 = true := by
      rw [Nat.testBit_zero, show (x + 1) % 2 = 1 by omega]
      decide
    rw [e1, e3]
    decide
  | succ i =>
    have h1 : (1 : Nat).testBit (i + 1) = false := by
      rw [Nat.testBit_succ]
      simp [Nat.zero_testBit]
    have h2 : (x + 1) / 2 = x / 2 := by omega
    rw [Nat.testBit_or, h1, Bool.or_false, Nat.testBit_succ, Nat.testBit_succ, h2]

theorem and_mod_two_of_even (x m : Nat) (hx : x % 2 = 0) : (x &&& m) % 2 = 0 := by
  have h : (x &&& m).testBit 0 = (x.testBit 0 && m.testBit 0) := Nat.testBit_and x m 0
  rw [Nat.testBit_zero, Nat.testBit_zero, Nat.testBit_zero, hx] at h
  rw [show decide ((0 : Nat) = 1) = false from rfl, Bool.false_and] at h
  have := of_decide_eq_false h
  omega

theorem or_mod_two_of_even (a c : Nat) (hc : c % 2 = 0) : (a ||| c) % 2 = a % 2 := by
  have h : (a ||| c).testBit 0 = (a.testBit 0 || c.testBit 0) := Nat.testBit_or a c 0
  rw [Nat.testBit_zero, Nat.testBit_zero, Nat.testBit_zero, hc] at h
  rw [show decide ((0 : Nat) = 1) = false from rfl, Bool.or_false] at h
  have h2 := decide_eq_decide.mp h
  omega

theorem and_add_one_of_even_odd (x m : Nat) (hx : x % 2 = 0) (hm : m % 2 = 1) :
    (x + 1) &&& m = (x &&& m) + 1 := by
  rw [← or_one_of_even x hx, Nat.and_distrib_right, Nat.and_comm 1 m,
    Nat.and_one_is_mod, hm]
  exact or_one_of_even _ (and_mod_two_of_even x m hx)

theorem nextState_eq (K : Nat) (s : Nat) (b : Bool) :
    nextState K s b = (2 * s + (if b then 1 else 0)) % 2 ^ (K - 1) := by
  unfold nextState
  rw [Nat.shiftLeft_eq, Nat.shiftLeft_eq, pow_one, one_mul,
    Nat.and_pow_two_sub_one_eq_mod]
  cases b with
  | false =>
    simp only [if_false, Bool.false_eq_true, Nat.or_zero, Nat.add_zero]
    congr 1
    ring
  | true =>
    simp only [if_true]
    rw [or_one_of_even (s * 2) (by omega)]
    congr 1
    ring

theorem nextState_lt (K : Nat) (s : Nat) (b : Bool) : nextState K s b < 2 ^ (K - 1) := by
  rw [nextState_eq]
  exact Nat.mod_lt _ (Nat.two_pow_pos _)

theorem stateAfter_nil (K s : Nat) : stateAfter K s [] = s := rfl

theorem stateAfter_cons (K s : Nat) (b : Bool) (bs : List Bool) :
    stateAfter K s (b :: bs) = stateAfter K (nextState K s b) bs := rfl

theorem stateAfter_concat (K s : Nat) (bs : List Bool) (b : Bool) :
    stateAfter K s (bs ++ [b]) = nextState K (stateAfter K s bs) b :=
  List.foldl_concat _ _ _ _

theorem stateAfter_lt (K : Nat) :
    ∀ (bs : List Bool) (s : Nat), s < 2 ^ (K - 1) → stateAfter K s bs < 2 ^ (K - 1) := by
  intro bs
  induction bs with
  | nil => intro s hs; exact hs
  | cons b rest ih =>
    intro s hs
    rw [stateAfter_cons]
    exact ih _ (nextState_lt K s b)

theorem encBits_nil (K : Nat) (masks : List Nat) (s : Nat) : encBits K masks s [] = [] := rfl

theorem encBits_cons (K : Nat) (masks : List Nat) (s : Nat) (b : Bool) (bs : List Bool) :
    encBits K masks s (b :: bs) =
      outGroup K masks s b ++ encBits K masks (nextState K s b) bs := rfl

theorem encodeCore_fst_stateAfter (K : Nat) (masks : List Nat) :
    ∀ (bs : List Bool) (s : Nat),
      (ConvolutionalEncoder.encodeCore ((1 <<< (K - 1)) - 1) masks s bs).1 =
        stateAfter K s bs := by
  intro bs
  induction bs with
  | nil => intro s; rfl
  | cons b rest ih =>
    intro s
    rw [encodeCore_cons, stateAfter_cons]
    exact ih _

theorem encBits_concat (K : Nat) (masks : List Nat) (s : Nat) (bs : List Bool) (b : Bool) :
    encBits K masks s (bs ++ [b]) =
      encBits K masks s bs ++ outGroup K masks (stateAfter K s bs) b := by
  unfold encBits
  rw [encodeCore_append]
  simp only [encodeCore_fst_stateAfter]
  congr 1
  rw [encodeCore_cons]
  simp only [encodeCore_nil, List.append_nil]
  rfl

theorem encBits_length (K : Nat) (masks : List Nat) (s : Nat) (bs : List Bool) :
    (encBits K masks s bs).length = bs.length * masks.length :=
  encodeCore_snd_length _ _ bs s

theorem toBinaryAux_mod_two :
    ∀ (fuel binary octal shift : Nat), 1 ≤ shift →
      toBinaryAux fuel binary octal shift % 2 = binary % 2 := by
  intro fuel
  induction fuel with
  | zero => intro binary octal shift _; rfl
  | succ f ih =>
    intro binary octal shift hs
    unfold toBinaryAux
    by_cases ho : octal = 0
    · simp [ho]
    · rw [if_neg ho, ih _ _ _ (by omega)]
      apply or_mod_two_of_even
      rw [Nat.shiftLeft_eq]
      have h2 : 2 ^ shift % 2 = 0 := by
        rcases Nat.exists_eq_succ_of_ne_zero (show shift ≠ 0 by omega) with ⟨k, hk⟩
        subst hk
        rw [pow_succ]
        omega
      rw [Nat.mul_mod, h2]
      simp

theorem toBinary_mod_two (p : Nat) : toBinary p % 2 = p % 2 := by
  unfold toBinary
  cases p with
  | zero => rfl
  | succ q =>
    unfold toBinaryAux
    rw [if_neg (Nat.succ_ne_zero q), toBinaryAux_mod_two _ _ _ _ (by omega),
      Nat.zero_or, Nat.shiftLeft_zero]
    exact Nat.mod_mod_of_dvd _ (by norm_num)

theorem outGroup_ne (K : Nat) (hK : 2 ≤ K) (masks : List Nat) (m0 : Nat)
    (hm : m0 ∈ masks) (hodd : m0 % 2 = 1) (s : Nat) :
    outGroup K masks s false ≠ outGroup K masks s true := by
  intro hcon
  have hcomp := (List.map_eq_map_iff.mp hcon) m0 hm
  have hMeven : 2 ^ (K - 1) % 2 = 0 := by
    rcases Nat.exists_eq_succ_of_ne_zero (show K - 1 ≠ 0 by omega) with ⟨k, hk⟩
    rw [hk, pow_succ]
    omega
  have hMpos : 0 < 2 ^ (K - 1) := Nat.two_pow_pos _
  have hn0 : nextState K s false = (2 * s) % 2 ^ (K - 1) := by
    rw [nextState_eq]
    simp
  have hn1 : nextState K s true = (2 * s + 1) % 2 ^ (K - 1) := by
    rw [nextState_eq]
    simp
  have h0even : (2 * s) % 2 ^ (K - 1) % 2 = 0 := by
    rw [Nat.mod_mod_of_dvd _ (Nat.dvd_of_mod_eq_zero hMeven)]
    omega
  have hlt : (2 * s) % 2 ^ (K - 1) < 2 ^ (K - 1) := Nat.mod_lt _ hMpos
  have hsucc : (2 * s + 1) % 2 ^ (K - 1) = (2 * s) % 2 ^ (K - 1) + 1 := by
    conv_lhs => rw [← Nat.div_add_mod (2 * s) (2 ^ (K - 1))]
    rw [Nat.add_assoc, Nat.mul_add_mod]
    exact Nat.mod_eq_of_lt (by omega)
  rw [hn0, hn1, hsucc, and_add_one_of_even_odd _ m0 h0even hodd,
    parityBit_add_one_of_even _ (and_mod_two_of_even _ m0 h0even)] at hcomp
  simp at hcomp

theorem encBits_inj (K : Nat) (hK : 2 ≤ K) (masks : List Nat) (m0 : Nat)
    (hm : m0 ∈ masks) (hodd : m0 % 2 = 1) :
    ∀ (b₁ b₂ : List Bool) (s : Nat), b₁.length = b₂.length →
      encBits K masks s b₁ = encBits K masks s b₂ → b₁ = b₂ := by
  intro b₁
  induction b₁ with
  | nil =>
    intro b₂ s hlen _
    exact (List.eq_nil_of_length_eq_zero hlen.symm).symm
  | cons b rest ih =>
    intro b₂ s hlen henc
    cases b₂ with
    | nil => simp at hlen
    | cons c rest₂ =>
      rw [encBits_cons, encBits_cons] at henc
      have hlg : (outGroup K masks s b).length = (outGroup K masks s c).length := by
        simp [outGroup]
      obtain ⟨hhead, htail⟩ := List.append_inj henc hlg
      have hbc : b = c := by
        by_contra hne
        cases b with
        | false =>
          cases c with
          | false => exact hne rfl
          | true => exact outGroup_ne K hK masks m0 hm hodd s hhead
        | true =>
          cases c with
          | false => exact outGroup_ne K hK masks m0 hm hodd s hhead.symm
          | true => exact hne rfl
      subst hbc
      have htl := ih rest₂ (nextState K s b) (by simpa using hlen) htail
      rw [htl]

theorem hamming_self : ∀ (l : List Bool), hamming l l = 0 := by
  intro l
  induction l with
  | nil => rfl
  | cons a as ih => simp [hamming, ih]

theorem hamming_append :
    ∀ (a c : List Bool), a.length = c.length →
      ∀ (b d : List Bool), hamming (a ++ b) (c ++ d) = hamming a c + hamming b d := by
  intro a
  induction a with
  | nil =>
    intro c hc b d
    rw [(List.eq_nil_of_length_eq_zero hc.symm : c = [])]
    simp [hamming]
  | cons x xs ih =>
    intro c hc b d
    cases c with
    | nil => simp at hc
    | cons y ys =>
      simp only [List.cons_append, hamming, List.append_eq]
      rw [ih ys (by simpa using hc) b d]
      ring

theorem eq_of_hamming_zero :
    ∀ (a b : List Bool), a.length = b.length → hamming a b = 0 → a = b := by
  intro a
  induction a with
  | nil =>
    intro b hlen _
    exact (List.eq_nil_of_length_eq_zero hlen.symm).symm
  | cons x xs ih =>
    intro b hlen h0
    cases b with
    | nil => simp at hlen
    | cons y ys =>
      simp only [hamming] at h0
      have hxy : x = y := by
        by_contra hne
        rw [if_neg hne] at h0
        omega
      subst hxy
      rw [if_pos rfl] at h0
      rw [ih ys (by simpa using hlen) (by omega)]

theorem chunkAux_congr :
    ∀ (f₁ f₂ n : Nat) (l : List Bool), l.length ≤ f₁ → l.length ≤ f₂ →
      chunkAux f₁ n l = chunkAux f₂ n l := by
  intro f₁
  induction f₁ with
  | zero =>
    intro f₂ n l h₁ _
    rw [(List.eq_nil_of_length_eq_zero (by omega) : l = [])]
    cases f₂ with
    | zero => rfl
    | succ f => simp [chunkAux]
  | succ f ih =>
    intro f₂ n l h₁ h₂
    cases f₂ with
    | zero =>
      rw [(List.eq_nil_of_length_eq_zero (by omega) : l = [])]
      simp [chunkAux]
    | succ f' =>
      simp only [chunkAux]
      by_cases hn : n = 0
      · simp [hn]
      · by_cases hl : l = []
        · simp [hl]
        · rw [if_neg hn, if_neg hn, if_neg hl, if_neg hl]
          have hlen : 0 < l.length := List.length_pos.mpr hl
          have hd : (l.drop n).length ≤ f := by
            rw [List.length_drop]
            omega
          have hd' : (l.drop n).length ≤ f' := by
            rw [List.length_drop]
            omega
          rw [ih f' n (l.drop n) hd hd']

theorem chunk_nil (n : Nat) : chunk n [] = [] := rfl

theorem chunk_cons_block (n : Nat) (hn : n ≠ 0) (g l : List Bool) (hg : g.length = n) :
    chunk n (g ++ l) = g :: chunk n l := by
  rcases Nat.exists_eq_succ_of_ne_zero hn with ⟨m, hm⟩
  subst hm
  unfold chunk
  have hgl : (g ++ l).length = m + l.length + 1 := by
    rw [List.length_append, hg]
    omega
  have hne : g ++ l ≠ [] := by
    intro hcon
    have := congrArg List.length hcon
    simp [hgl] at this
  rw [hgl]
  simp only [chunkAux]
  rw [if_neg (Nat.succ_ne_zero m), if_neg hne, List.take_left' hg, List.drop_left' hg]
  congr 1
  exact chunkAux_congr _ _ _ l (by omega) le_rfl

theorem chunk_spec (n : Nat) (hn : n ≠ 0) :
    ∀ (k : Nat) (l : List Bool), l.length = k * n →
      (∀ g ∈ chunk n l, g.length = n) ∧ (chunk n l).flatten = l ∧ (chunk n l).length = k := by
  intro k
  induction k with
  | zero =>
    intro l hl
    rw [(List.eq_nil_of_length_eq_zero (by omega) : l = [])]
    exact ⟨by simp [chunk_nil], by simp [chunk_nil], by simp [chunk_nil]⟩
  | succ k ih =>
    intro l hl
    rw [Nat.succ_mul] at hl
    have hlen_ge : n ≤ l.length := by omega
    have hg : (l.take n).length = n := by
      rw [List.length_take]
      omega
    have hrest : (l.drop n).length = k * n := by
      rw [List.length_drop]
      omega
    have hsplit : l = l.take n ++ l.drop n := (List.take_append_drop n l).symm
    obtain ⟨h1, h2, h3⟩ := ih (l.drop n) hrest
    constructor
    · intro g' hg'
      rw [hsplit, chunk_cons_block n hn _ _ hg] at hg'
      rcases List.mem_cons.mp hg' with rfl | hmem
      · exact hg
      · exact h1 g' hmem
    constructor
    · conv_lhs => rw [hsplit, chunk_cons_block n hn _ _ hg]
      rw [List.flatten_cons, h2]
      exact hsplit.symm
    · conv_lhs => rw [hsplit, chunk_cons_block n hn _ _ hg]
      simp [h3]

theorem foldl_better_mem :
    ∀ (l : List (Option (Nat × List Bool))) (acc : Option (Nat × List Bool))
      (v : Nat × List Bool),
      l.foldl better acc = some v → some v ∈ l ∨ acc = some v := by
  intro l
  induction l with
  | nil => intro acc v h; exact Or.inr h
  | cons x xs ih =>
    intro acc v h
    rw [List.foldl_cons] at h
    rcases ih (better acc x) v h with hmem | heq
    · exact Or.inl (List.mem_cons_of_mem x hmem)
    · cases acc with
      | none =>
        simp only [better] at heq
        exact Or.inl (heq ▸ List.mem_cons_self x xs)
      | some a =>
        cases x with
        | none => exact Or.inr heq
        | some b =>
          simp only [better] at heq
          by_cases hba : b.1 < a.1
          · rw [if_pos hba] at heq
            exact Or.inl (heq ▸ List.mem_cons_self _ xs)
          · rw [if_neg hba] at heq
            exact Or.inr heq

theorem foldl_better_le_acc :
    ∀ (l : List (Option (Nat × List Bool))) (a : Nat) (p : List Bool),
      ∃ m' p', l.foldl better (some (a, p)) = some (m', p') ∧ m' ≤ a := by
  intro l
  induction l with
  | nil => intro a p; exact ⟨a, p, rfl, le_rfl⟩
  | cons x xs ih =>
    intro a p
    rw [List.foldl_cons]
    cases x with
    | none => exact ih a p
    | some b =>
      simp only [better]
      by_cases hba : b.1 < a
      · rw [if_pos hba]
        obtain ⟨m', p', h1, h2⟩ := ih b.1 b.2
        exact ⟨m', p', h1, by omega⟩
      · rw [if_neg hba]
        exact ih a p

theorem foldl_better_min :
    ∀ (l : List (Option (Nat × List Bool))) (m : Nat) (p : List Bool)
      (acc : Option (Nat × List Bool)),
      (some (m, p) ∈ l ∨ (∃ p₀, acc = some (m, p₀))) →
      ∃ m' p', l.foldl better acc = some (m', p') ∧ m' ≤ m := by
  intro l
  induction l with
  | nil =>
    intro m p acc h
    rcases h with hmem | ⟨p₀, rfl⟩
    · simp at hmem
    · exact ⟨m, p₀, rfl, le_rfl⟩
  | cons x xs ih =>
    intro m p acc h
    rw [List.foldl_cons]
    rcases h with hmem | ⟨p₀, rfl⟩
    · rcases List.mem_cons.mp hmem with hx | hmem'
      · cases acc with
        | none =>
          rw [← hx]
          exact foldl_better_le_acc xs m p
        | some a =>
          rw [← hx]
          simp only [better]
          by_cases hm : m < a.1
          · rw [if_pos hm]
            exact foldl_better_le_acc xs m p
          · rw [if_neg hm]
            obtain ⟨m', p', h1, h2⟩ := foldl_better_le_acc xs a.1 a.2
            exact ⟨m', p', h1, by omega⟩
      · exact ih m p _ (Or.inl hmem')
    · cases x with
      | none => exact ih m p _ (Or.inr ⟨p₀, rfl⟩)
      | some b =>
        simp only [better]
        by_cases hb : b.1 < m
        · rw [if_pos hb]
          obtain ⟨m', p', h1, h2⟩ := foldl_better_le_acc xs b.1 b.2
          exact ⟨m', p', h1, by omega⟩
        · rw [if_neg hb]
          exact ih m p _ (Or.inr ⟨p₀, rfl⟩)

theorem pickBest_mem (l : List (Option (Nat × List Bool))) (v : Nat × List Bool)
    (h : pickBest l = some v) : some v ∈ l :=
  (foldl_better_mem l none v h).resolve_right (fun hcon => Option.noConfusion hcon)

theorem pickBest_min (l : List (Option (Nat × List Bool))) (m : Nat) (p : List Bool)
    (h : some (m, p) ∈ l) : ∃ m' p', pickBest l = some (m', p') ∧ m' ≤ m :=
  foldl_better_min l m p none (Or.inl h)

theorem flatten_length_uniform (n : Nat) :
    ∀ (gs : List (List Bool)), (∀ g ∈ gs, g.length = n) →
      gs.flatten.length = gs.length * n := by
  intro gs
  induction gs with
  | nil => intro _; simp
  | cons g gs ih =>
    intro h
    rw [List.flatten_cons, List.length_append,
      ih (fun g' hg' => h g' (List.mem_cons_of_mem _ hg')),
      h g (List.mem_cons_self _ _)]
    simp [List.length_cons]
    ring

theorem viterbi_sound (K : Nat) (masks : List Nat) :
    ∀ (gs : List (List Bool)), (∀ g ∈ gs, g.length = masks.length) →
      ∀ (s m : Nat) (p : List Bool),
        (gs.foldl (stepMet K masks) initMet) s = some (m, p) →
        p.length = gs.length ∧
        stateAfter K 0 p.reverse = s ∧
        hamming (encBits K masks 0 p.reverse) gs.flatten = m := by
  intro gs
  induction gs using List.reverseRecOn with
  | nil =>
    intro _ s m p h
    simp only [List.foldl_nil] at h
    unfold initMet at h
    by_cases hs : s = 0
    · rw [if_pos hs] at h
      injection h with h'
      have hm := congrArg Prod.fst h'
      have hp := congrArg Prod.snd h'
      simp only at hm hp
      refine ⟨by rw [← hp]; rfl, ?_, ?_⟩
      · rw [← hp, hs]
        rfl
      · rw [← hp, ← hm]
        rfl
    · rw [if_neg hs] at h
      exact absurd h (by simp)
  | append_singleton gs g ih =>
    intro hg s m p h
    have hg' : ∀ g' ∈ gs, g'.length = masks.length :=
      fun g' hgm => hg g' (List.mem_append_left _ hgm)
    have hgl : g.length = masks.length := hg g (by simp)
    rw [List.foldl_concat] at h
    obtain hmem := pickBest_mem _ _ h
    obtain ⟨sb, hsb, hcand⟩ := List.mem_map.mp hmem
    unfold branchCand at hcand
    by_cases hguard : nextState K sb.1 sb.2 = s
    · rw [if_pos hguard] at hcand
      cases hmet : (gs.foldl (stepMet K masks) initMet) sb.1 with
      | none =>
        rw [hmet] at hcand
        exact absurd hcand (by simp)
      | some mp =>
        rw [hmet] at hcand
        simp only [Option.map_some'] at hcand
        injection hcand with hcand'
        have hm := congrArg Prod.fst hcand'
        have hp := congrArg Prod.snd hcand'
        simp only at hm hp
        obtain ⟨hlen, hstate, hham⟩ := ih hg' sb.1 mp.1 mp.2 hmet
        refine ⟨?_, ?_, ?_⟩
        · rw [← hp]
          simp [hlen]
        · rw [← hp, List.reverse_cons, stateAfter_concat, hstate, hguard]
        · rw [← hp, List.reverse_cons, encBits_concat, hstate, List.flatten_append,
            show ([g] : List (List Bool)).flatten = g from by simp,
            hamming_append _ _ ?_ _ _, hham, ← hm]
          rw [encBits_length, List.length_reverse, hlen,
            flatten_length_uniform masks.length gs hg']
    · rw [if_neg hguard] at hcand
      exact absurd hcand (by simp)

theorem viterbi_min (K : Nat) (masks : List Nat) :
    ∀ (gs : List (List Bool)), (∀ g ∈ gs, g.length = masks.length) →
      ∀ (q : List Bool), q.length = gs.length →
        ∃ m p, (gs.foldl (stepMet K masks) initMet) (stateAfter K 0 q) = some (m, p) ∧
          m ≤ hamming (encBits K masks 0 q) gs.flatten := by
  intro gs
  induction gs using List.reverseRecOn with
  | nil =>
    intro _ q hq
    rw [(List.eq_nil_of_length_eq_zero hq : q = [])]
    exact ⟨0, [], rfl, Nat.zero_le _⟩
  | append_singleton gs g ih =>
    intro hg q hq
    have hg' : ∀ g' ∈ gs, g'.length = masks.length :=
      fun g' hgm => hg g' (List.mem_append_left _ hgm)
    have hqne : q ≠ [] := by
      intro hcon
      rw [hcon] at hq
      simp at hq
    have hsplit : q = q.dropLast ++ [q.getLast hqne] :=
      (List.dropLast_append_getLast hqne).symm
    have hq0len : q.dropLast.length = gs.length := by
      rw [List.length_dropLast]
      simp at hq
      omega
    obtain ⟨m₀, p₀, hmet0, hle0⟩ := ih hg' q.dropLast hq0len
    rw [List.foldl_concat]
    have hstateq : stateAfter K 0 q =
        nextState K (stateAfter K 0 q.dropLast) (q.getLast hqne) := by
      conv_lhs => rw [hsplit]
      rw [stateAfter_concat]
    have hs₀lt : stateAfter K 0 q.dropLast < numStates K :=
      stateAfter_lt K _ 0 (Nat.two_pow_pos _)
    have hpairmem : (stateAfter K 0 q.dropLast, q.getLast hqne) ∈ statePairs K := by
      unfold statePairs
      rw [List.mem_flatMap]
      exact ⟨stateAfter K 0 q.dropLast, List.mem_range.mpr hs₀lt,
        by cases q.getLast hqne <;> simp⟩
    have hcand : branchCand K masks (gs.foldl (stepMet K masks) initMet) g
        (stateAfter K 0 q) (stateAfter K 0 q.dropLast, q.getLast hqne) =
        some (m₀ + hamming (outGroup K masks (stateAfter K 0 q.dropLast)
            (q.getLast hqne)) g, q.getLast hqne :: p₀) := by
      unfold branchCand
      rw [if_pos hstateq.symm, hmet0]
      rfl
    have hmemmap : some (m₀ + hamming (outGroup K masks (stateAfter K 0 q.dropLast)
        (q.getLast hqne)) g, q.getLast hqne :: p₀) ∈
        (statePairs K).map (branchCand K masks (gs.foldl (stepMet K masks) initMet) g
          (stateAfter K 0 q)) :=
      List.mem_map.mpr ⟨_, hpairmem, hcand⟩
    obtain ⟨m', p', hpick, hle⟩ := pickBest_min _ _ _ hmemmap
    refine ⟨m', p', hpick, ?_⟩
    have hrhs : hamming (encBits K masks 0 q) (gs ++ [g]).flatten =
        hamming (encBits K masks 0 q.dropLast) gs.flatten +
          hamming (outGroup K masks (stateAfter K 0 q.dropLast) (q.getLast hqne)) g := by
      conv_lhs => rw [hsplit]
      rw [encBits_concat, List.flatten_append,
        show ([g] : List (List Bool)).flatten = g from by simp,
        hamming_append _ _ ?_ _ _]
      rw [encBits_length, List.length_dropLast, flatten_length_uniform masks.length gs hg']
      simp at hq
      congr 1
      omega
    rw [hrhs]
    omega

/-- C1 counterexample: the round trip fails for the admissible configuration
constraint length 3 with polynomial list `[0]` (non-empty, so allowed by the
claim): every codeword bit is 0 whatever the input, all trellis paths have
metric 0, and the deterministic tie-break reconstructs `[0]` from
`encode([1])`, so `decode(encode([1])) = [0] ≠ [1]`. -/
theorem viterbi_round_trip_fails_on_zero_poly :
    (((ConvolutionalEncoder.new 3 [0]).encode [true]).map Prod.snd) = some [false] ∧
    (ViterbiDecoder.new 3 [0]).decode [false] = some [false] ∧
    some [false] ≠ some ([true] : List Bool) := by decide

/-- C1 amended (the Viterbi decoder is modelled from the spec, its source file
being absent): for every constraint length ≥ 2, every polynomial list
containing at least one odd polynomial (so that the tap mask reads the current
input bit and the encoding map is injective), and every bit sequence, decoding
the encoder's output with identical parameters returns the input exactly,
Viterbi metric ties being broken deterministically (lowest state index, first
candidate kept). -/
theorem viterbi_round_trip_of_odd_poly (K : Nat) (polys : List Nat) (input : List Bool)
    (e' : ConvolutionalEncoder) (out : List Bool)
    (hK : 2 ≤ K) (hodd : ∃ q ∈ polys, q % 2 = 1)
    (henc : (ConvolutionalEncoder.new K polys).encode input = some (e', out)) :
    (ViterbiDecoder.new K polys).decode out = some input := by
  have hKne : K ≠ 0 := by omega
  simp only [ConvolutionalEncoder.encode, ConvolutionalEncoder.new] at henc
  rw [if_neg hKne] at henc
  simp only [Option.some.injEq, Prod.mk.injEq] at henc
  obtain ⟨_, hout⟩ := henc
  have hout' : encBits K (polys.map toBinary) 0 input = out := hout
  obtain ⟨q, hqmem, hqodd⟩ := hodd
  have hm0 : toBinary q ∈ polys.map toBinary := List.mem_map_of_mem toBinary hqmem
  have hm0odd : toBinary q % 2 = 1 := by
    rw [toBinary_mod_two]
    exact hqodd
  have hnne : (polys.map toBinary).length ≠ 0 := by
    intro hcon
    rw [List.length_eq_zero.mp hcon] at hm0
    simp at hm0
  simp only [ViterbiDecoder.decode, ViterbiDecoder.new]
  rw [if_neg hnne]
  have hlen_out : out.length = input.length * (polys.map toBinary).length := by
    rw [← hout']
    exact encBits_length _ _ _ _
  have hmod : out.length % (polys.map toBinary).length = 0 := by
    rw [hlen_out]
    exact Nat.mul_mod_left _ _
  rw [if_neg (show ¬ out.length % (polys.map toBinary).length ≠ 0 by omega)]
  obtain ⟨hglen, hflat, hgcount⟩ :=
    chunk_spec (polys.map toBinary).length hnne input.length out (by rw [hlen_out])
  obtain ⟨m₀, q₀, hmet, hle⟩ :=
    viterbi_min K (polys.map toBinary) (chunk (polys.map toBinary).length out) hglen
      input (by rw [hgcount])
  rw [hflat, ← hout', hamming_self] at hle
  have hm₀ : m₀ = 0 := by omega
  subst hm₀
  have hsin : stateAfter K 0 input < numStates K :=
    stateAfter_lt K input 0 (Nat.two_pow_pos _)
  have hmemfin : some (0, q₀) ∈ (List.range (numStates K)).map
      ((chunk (polys.map toBinary).length out).foldl
        (stepMet K (polys.map toBinary)) initMet) :=
    List.mem_map.mpr ⟨stateAfter K 0 input, List.mem_range.mpr hsin, hmet⟩
  obtain ⟨m', p', hpick, hle'⟩ := pickBest_min _ _ _ hmemfin
  have hm' : m' = 0 := by omega
  subst hm'
  obtain hmem' := pickBest_mem _ _ hpick
  obtain ⟨sStar, hsStar, hmetStar⟩ := List.mem_map.mp hmem'
  obtain ⟨hplen, hpstate, hpham⟩ :=
    viterbi_sound K (polys.map toBinary) (chunk (polys.map toBinary).length out)
      hglen sStar 0 p' hmetStar
  have hlenrev : (encBits K (polys.map toBinary) 0 p'.reverse).length = out.length := by
    rw [encBits_length, List.length_reverse, hplen, hgcount, hlen_out]
  have hencEq : encBits K (polys.map toBinary) 0 p'.reverse = out := by
    apply eq_of_hamming_zero _ _ hlenrev
    rw [hflat] at hpham
    exact hpham
  have hinp : p'.reverse = input := by
    apply encBits_inj K hK (polys.map toBinary) (toBinary q) hm0 hm0odd p'.reverse input 0
    · rw [List.length_reverse, hplen, hgcount]
    · rw [hencEq, hout']
  rw [hpick]
  simp only [Option.map_some']
  rw [hinp]

theorem viterbi_round_trip_of_odd_poly_witness :
    (ViterbiDecoder.new 3 [7, 5]).decode [true, true, true, false] = some [true, false] :=
  viterbi_round_trip_of_odd_poly 3 [7, 5] [true, false] ⟨3, [7, 5], 2, 2⟩
    [true, true, true, false] (by norm_num) ⟨7, by decide, by decide⟩ (by decide)
